import Mathlib

/-!
Verification development for the document reflow / syntax-highlighting engine
of the `propison` repository (core: `src/services/pdfService.ts`).

JS strings are modelled as `List Char`.  Rational numbers stand in for the
numeric computations of the layout fitter (the quantities involved are exact
decimal fractions: base sizes 11 and 9.5, line-height 1.35, spacing 14,
scale step 0.05, floor 0.65).
-/

namespace Propison

/-- Backtick character (U+0060), written via its code point. -/
def btk : Char := Char.ofNat 96

/-- Single-quote character (U+0027). -/
def sq : Char := Char.ofNat 39

/-- Double-quote character (U+0022). -/
def dq : Char := Char.ofNat 34

/-- The JS `\s` whitespace class, restricted to the code points the engine
can actually meet in its inputs (ASCII whitespace, NBSP, BOM). -/
def isJsSpace (c : Char) : Bool :=
  c = ' ' || c = '\t' || c = '\n' || c = '\r' || c = Char.ofNat 11 ||
  c = Char.ofNat 12 || c = Char.ofNat 160 || c = Char.ofNat 0xfeff

/-- The JS `\w` word class: ASCII letters, digits, underscore. -/
def isWordChar (c : Char) : Bool :=
  ('a' ≤ c && c ≤ 'z') || ('A' ≤ c && c ≤ 'Z') || ('0' ≤ c && c ≤ '9') || c = '_'

/-- ASCII digit test (`/[0-9]/`). -/
def isDigitC (c : Char) : Bool := '0' ≤ c && c ≤ '9'

/-- Class `/[a-zA-Z_]/`: identifier start. -/
def isIdentStart (c : Char) : Bool :=
  ('a' ≤ c && c ≤ 'z') || ('A' ≤ c && c ≤ 'Z') || c = '_'

/-- Class `/[a-zA-Z0-9_]/`: identifier continuation. -/
def isIdentChar (c : Char) : Bool :=
  ('a' ≤ c && c ≤ 'z') || ('A' ≤ c && c ≤ 'Z') || ('0' ≤ c && c ≤ '9') || c = '_'

/-- Class `/[0-9.xXa-fA-F]/`: the number-literal continuation class. -/
def isNumChar (c : Char) : Bool :=
  ('0' ≤ c && c ≤ '9') || c = '.' || c = 'x' || c = 'X' ||
  ('a' ≤ c && c ≤ 'f') || ('A' ≤ c && c ≤ 'F')

/-- Class `/[0-9a-fA-F]/`: hex digit. -/
def isHexDigit (c : Char) : Bool :=
  ('0' ≤ c && c ≤ '9') || ('a' ≤ c && c ≤ 'f') || ('A' ≤ c && c ≤ 'F')

/-! ### TextCleaner (`PdfService.cleanText`)

`cleanText` is a fixed sequence of eight global replacements, applied one
after the other over the whole string (JS `String.replace` with the `g`
flag: leftmost-first, non-overlapping, and the replacement text is not
rescanned within the same pass). -/

/-- One global literal replacement pass.  `skipThen pat rep k cs` is the
scanner with `k` characters of a previously matched occurrence still to be
skipped; scanning restarts right after a matched occurrence (the
replacement itself is not rescanned), exactly like `String.replace(/pat/g, rep)`. -/
def skipThen (pat rep : List Char) : Nat → List Char → List Char
  | _, [] => []
  | k + 1, _ :: cs => skipThen pat rep k cs
  | 0, c :: cs =>
    if pat.isPrefixOf (c :: cs) ∧ pat ≠ [] then
      rep ++ skipThen pat rep (pat.length - 1) cs
    else
      c :: skipThen pat rep 0 cs

/-- Global replacement of the literal `pat` by `rep` (JS `replace(/pat/g, rep)`). -/
def replaceAll (pat rep cs : List Char) : List Char := skipThen pat rep 0 cs

/-- Model of `String.fromCharCode`: code units are taken modulo 2^16.  (Values in the
surrogate range are not valid Lean `Char`s and collapse to U+0000; the engine
never produces them from its real inputs.) -/
def fromCharCode (n : Nat) : Char := Char.ofNat (n % 65536)

/-- Decimal value of a digit run (JS `ToNumber` on a digit string). -/
def decVal (ds : List Char) : Nat := ds.foldl (fun a c => a * 10 + (c.toNat - 48)) 0

/-- Hex digit value. -/
def hexDigitVal (c : Char) : Nat :=
  if isDigitC c then c.toNat - 48
  else if 'a' ≤ c && c ≤ 'f' then c.toNat - 87
  else c.toNat - 55

/-- Value of a hex digit run (`parseInt(hex, 16)`). -/
def hexVal (ds : List Char) : Nat := ds.foldl (fun a c => a * 16 + hexDigitVal c) 0

/-- Whether a decimal entity `&#NNN;` matches at `'&' :: cs` (so `cs` must
begin with `#`, one or more digits, and `;`). -/
def decEntHead (cs : List Char) : Bool :=
  cs.head? = some '#' && cs.tail.takeWhile isDigitC ≠ [] &&
  (cs.tail.dropWhile isDigitC).head? = some ';'

/-- Number of characters of `cs` consumed by a decimal entity matching at
`'&' :: cs`: the `#`, the digits, the `;`. -/
def decEntSkip (cs : List Char) : Nat := 1 + (cs.tail.takeWhile isDigitC).length + 1

/-- Replacement character for a decimal entity matching at `'&' :: cs`. -/
def decEntChar (cs : List Char) : Char := fromCharCode (decVal (cs.tail.takeWhile isDigitC))

/-- The pass `replace(/&#(\d+);/g, (_, dec) => String.fromCharCode(dec))`:
scan left to right, replacing each decimal entity; `k` counts characters of a
matched entity still to be skipped. -/
def decEntities : Nat → List Char → List Char
  | _, [] => []
  | k + 1, _ :: cs => decEntities k cs
  | 0, c :: cs =>
    if c = '&' ∧ decEntHead cs then
      decEntChar cs :: decEntities (decEntSkip cs) cs
    else
      c :: decEntities 0 cs

/-- Whether a hex entity `&#xHHHH;` matches at `'&' :: cs` (lowercase `x`
only, as in the source regex). -/
def hexEntHead (cs : List Char) : Bool :=
  cs.head? = some '#' && cs.tail.head? = some 'x' &&
  cs.tail.tail.takeWhile isHexDigit ≠ [] &&
  (cs.tail.tail.dropWhile isHexDigit).head? = some ';'

/-- Characters of `cs` consumed by a hex entity matching at `'&' :: cs`. -/
def hexEntSkip (cs : List Char) : Nat := 2 + (cs.tail.tail.takeWhile isHexDigit).length + 1

/-- Replacement character for a hex entity matching at `'&' :: cs`. -/
def hexEntChar (cs : List Char) : Char := fromCharCode (hexVal (cs.tail.tail.takeWhile isHexDigit))

/-- The pass `replace(/&#x([0-9a-fA-F]+);/g, ...)`. -/
def hexEntities : Nat → List Char → List Char
  | _, [] => []
  | k + 1, _ :: cs => hexEntities k cs
  | 0, c :: cs =>
    if c = '&' ∧ hexEntHead cs then
      hexEntChar cs :: hexEntities (hexEntSkip cs) cs
    else
      c :: hexEntities 0 cs

/-- Model of `PdfService.cleanText`: the eight replacement passes, in source order. -/
def cleanText (cs : List Char) : List Char :=
  hexEntities 0 (decEntities 0 (
    replaceAll ("&#39;".data) [sq] (
    replaceAll ("&quot;".data) [dq] (
    replaceAll ("&gt;".data) (">".data) (
    replaceAll ("&lt;".data) ("<".data) (
    replaceAll ("&amp;".data) ("&".data) (
    replaceAll ("&nbsp;".data) (" ".data) cs)))))))

/-- Whether the literal `pat` occurs in `cs` (aligned with `skipThen`'s scan). -/
def containsPat (pat : List Char) : List Char → Bool
  | [] => pat.isPrefixOf ([] : List Char)
  | c :: cs => pat.isPrefixOf (c :: cs) || containsPat pat cs

/-- Whether a decimal entity occurs anywhere in `cs`. -/
def hasDecEntity : List Char → Bool
  | [] => false
  | c :: cs => (c = '&' && decEntHead cs) || hasDecEntity cs

/-- Whether a hex entity occurs anywhere in `cs`. -/
def hasHexEntity : List Char → Bool
  | [] => false
  | c :: cs => (c = '&' && hexEntHead cs) || hasHexEntity cs

/-- Whether a decimal entity matches at the very start of a string. -/
def decEntStart : List Char → Bool
  | [] => false
  | c :: t => c = '&' && decEntHead t

/-- Whether a hex entity matches at the very start of a string. -/
def hexEntStart : List Char → Bool
  | [] => false
  | c :: t => c = '&' && hexEntHead t

/-! ### ContentSegmenter (`PdfService.parseContent`)

The source drives a loop on `regex.exec` with the pattern
`/```(?:\w+)?\s*\n([\s\S]*?)```/g`.  We model the regex match directly:

* after the three backticks, the backtracking of `(?:\w+)?\s*\n` amounts to
  consuming the maximal `\w` run, then the maximal `\s` run up to and
  including its last newline (any shorter `\w` choice leaves a word
  character in front of `\s*\n`, which can match neither `\s` nor `\n`);
* the lazy group `([\s\S]*?)` followed by three literal backticks captures
  everything up to the first later occurrence of three backticks;
* when the whole pattern fails at one start position, the engine retries at
  the next position. -/

inductive BlockType | text | code
deriving DecidableEq, Repr

/-- The `ContentBlock` record, restricted to the fields segmentation produces. -/
structure Block where
  type : BlockType
  content : List Char
deriving DecidableEq, Repr

/-- JS `String.prototype.trim`: drop leading and trailing whitespace. -/
def jsTrim (cs : List Char) : List Char :=
  ((cs.dropWhile isJsSpace).reverse.dropWhile isJsSpace).reverse

/-- Pattern `\s*\n` with backtracking, after the optional language tag: consume the
maximal whitespace run up to and including its last newline; fail if the run
has no newline.  Returns the remainder (start of the captured content). -/
def matchWsNl (cs : List Char) : Option (List Char) :=
  if ((cs.takeWhile isJsSpace).reverse.takeWhile (fun c => c ≠ '\n')).length =
      (cs.takeWhile isJsSpace).length then none
  else
    some (((cs.takeWhile isJsSpace).reverse.takeWhile (fun c => c ≠ '\n')).reverse ++
      cs.dropWhile isJsSpace)

/-- Lazy scan for the closing three backticks: returns the captured content
and the remainder after the closing fence. -/
def findClose : List Char → Option (List Char × List Char)
  | [] => none
  | c :: cs =>
    if c = btk ∧ cs.head? = some btk ∧ cs.tail.head? = some btk then
      some ([], cs.tail.tail)
    else
      (findClose cs).map (fun p => (c :: p.1, p.2))

/-- Try the whole fence pattern at the start of `cs`: three backticks,
optional word run, whitespace through a newline, lazy content, closing
backticks.  Returns (content, remainder). -/
def matchFenceHere (cs : List Char) : Option (List Char × List Char) :=
  match cs with
  | b1 :: b2 :: b3 :: r =>
    if b1 = btk ∧ b2 = btk ∧ b3 = btk then
      match matchWsNl (r.dropWhile isWordChar) with
      | none => none
      | some afterNl => findClose afterNl
    else none
  | _ => none

/-- First match of the fence pattern anywhere in `cs` (the `exec` search):
returns (text before the match, captured content, remainder after). -/
def findFence : List Char → Option (List Char × List Char × List Char)
  | [] => none
  | c :: cs =>
    match matchFenceHere (c :: cs) with
    | some (ct, rest) => some ([], ct, rest)
    | none => (findFence cs).map (fun p => (c :: p.1, p.2.1, p.2.2))

/-- Model of `replace(/\t/g, '    ')`: each tab becomes four spaces. -/
def tabTo4 (cs : List Char) : List Char :=
  cs.foldr (fun c acc => if c = '\t' then ' ' :: ' ' :: ' ' :: ' ' :: acc else c :: acc) []

/-- Model of `replace(/^\n+|\n+$/g, '')`: strip the leading and trailing newline runs. -/
def stripNl (cs : List Char) : List Char :=
  ((cs.dropWhile (fun c => c = '\n')).reverse.dropWhile (fun c => c = '\n')).reverse

/-- A trimmed prose segment becomes a `text` block when non-empty. -/
def proseOf (cs : List Char) : List Block :=
  if jsTrim cs = [] then [] else [⟨BlockType.text, jsTrim cs⟩]

/-- A fenced content segment becomes a `code` block when non-empty after
tab expansion and newline stripping. -/
def codeOf (cs : List Char) : List Block :=
  if stripNl (tabTo4 cs) = [] then [] else [⟨BlockType.code, stripNl (tabTo4 cs)⟩]

/-- The close scan splits its input exactly. -/
theorem findClose_spec : ∀ cs ct r, findClose cs = some (ct, r) →
    ct ++ btk :: btk :: btk :: r = cs := by
  intro cs
  induction cs with
  | nil => intro ct r h; simp [findClose] at h
  | cons c cs ih =>
    intro ct r h
    rw [findClose] at h
    split at h
    · next hb =>
      obtain ⟨h1, h2, h3⟩ := hb
      simp only [Option.some.injEq, Prod.mk.injEq] at h
      obtain ⟨hct, hr⟩ := h
      subst hct hr h1
      cases cs with
      | nil => simp at h2
      | cons d ds =>
        simp only [List.head?_cons, Option.some.injEq] at h2
        subst h2
        cases ds with
        | nil => simp at h3
        | cons e es =>
          simp only [List.tail_cons, List.head?_cons, Option.some.injEq] at h3
          subst h3
          simp
    · cases hfc : findClose cs with
      | none => rw [hfc] at h; simp at h
      | some p =>
        rw [hfc] at h
        simp only [Option.map_some', Option.some.injEq, Prod.mk.injEq] at h
        obtain ⟨hct, hr⟩ := h
        subst hct hr
        simpa using ih p.1 p.2 (by simpa using hfc)

/-- The close scan leaves a strictly shorter remainder. -/
theorem findClose_len {cs ct r : List Char} (h : findClose cs = some (ct, r)) :
    ct.length + r.length + 3 = cs.length := by
  have hs := findClose_spec cs ct r h
  have : (ct ++ btk :: btk :: btk :: r).length = cs.length := by rw [hs]
  simp only [List.length_append, List.length_cons] at this
  omega

/-- The whitespace-newline matcher only consumes characters. -/
theorem matchWsNl_len {cs r : List Char} (h : matchWsNl cs = some r) :
    r.length ≤ cs.length := by
  rw [matchWsNl] at h
  split at h
  · simp at h
  · simp only [Option.some.injEq] at h
    subst h
    have h1 : ((cs.takeWhile isJsSpace).reverse.takeWhile (fun c => c ≠ '\n')).length ≤
        (cs.takeWhile isJsSpace).reverse.length := (List.takeWhile_sublist _).length_le
    have h2 : (cs.takeWhile isJsSpace).length + (cs.dropWhile isJsSpace).length = cs.length := by
      rw [← List.length_append, List.takeWhile_append_dropWhile]
    simp only [List.length_reverse] at h1
    simp only [List.length_append, List.length_reverse]
    omega

/-- The remainder of a successful fence match is strictly shorter. -/
theorem matchFenceHere_len {cs ct rest : List Char}
    (h : matchFenceHere cs = some (ct, rest)) : rest.length < cs.length := by
  match cs, h with
  | [], h => simp [matchFenceHere] at h
  | [b1], h => simp [matchFenceHere] at h
  | [b1, b2], h => simp [matchFenceHere] at h
  | b1 :: b2 :: b3 :: r, h =>
    rw [matchFenceHere] at h
    split at h
    · cases hw : matchWsNl (r.dropWhile isWordChar) with
      | none => rw [hw] at h; simp at h
      | some afterNl =>
        rw [hw] at h
        simp only at h
        have hl1 : afterNl.length ≤ (r.dropWhile isWordChar).length := matchWsNl_len hw
        have hl2 : (r.dropWhile isWordChar).length ≤ r.length :=
          (List.dropWhile_sublist _).length_le
        have hl3 := findClose_len h
        simp only [List.length_cons]
        omega
    · simp at h

/-- The remainder after the first fence match is strictly shorter. -/
theorem findFence_len : ∀ cs pre ct rest, findFence cs = some (pre, ct, rest) →
    rest.length < cs.length := by
  intro cs
  induction cs with
  | nil => intro pre ct rest h; simp [findFence] at h
  | cons c cs ih =>
    intro pre ct rest h
    rw [findFence] at h
    cases hm : matchFenceHere (c :: cs) with
    | some p =>
      rw [hm] at h
      simp only [Option.some.injEq, Prod.mk.injEq] at h
      obtain ⟨-, -, hr⟩ := h
      subst hr
      exact matchFenceHere_len (by simpa using hm : matchFenceHere (c :: cs) = some (p.1, p.2))
    | none =>
      rw [hm] at h
      cases hf : findFence cs with
      | none => rw [hf] at h; simp at h
      | some q =>
        rw [hf] at h
        simp only [Option.map_some', Option.some.injEq, Prod.mk.injEq] at h
        obtain ⟨-, -, hr⟩ := h
        subst hr
        have := ih q.1 q.2.1 q.2.2 (by simpa using hf)
        simp only [List.length_cons]
        omega

/-- The segmentation loop of `parseContent`: prose before each fence match,
the transformed fenced content, then the rest; the trailing segment becomes
prose. -/
def segmentBlocks (cs : List Char) : List Block :=
  match h : findFence cs with
  | none => proseOf cs
  | some (pre, ct, rest) => proseOf pre ++ codeOf ct ++ segmentBlocks rest
termination_by cs.length
decreasing_by exact findFence_len cs pre ct rest h

/-- Model of `PdfService.parseContent`: clean, then segment. -/
def parseContent (cs : List Char) : List Block := segmentBlocks (cleanText cs)

/-! ### CodeTokenizer (`PdfService.renderCodeLine`)

`renderCodeLine` scans one line left to right and renders each classified
token at the running x cursor.  The pure content of that loop is the ordered
token sequence, modelled here: one iteration of the `while (i < len)` loop
becomes `tokenStep` (which can emit several tokens in the `#include <...>`
special path), and the whole loop becomes `tokenizeLine`. -/

/-- The color classes of `SYNTAX_COLORS`. -/
inductive ColorClass
  | keyword | functionName | stringLit | numberLit | comment | plain
deriving DecidableEq, Repr

/-- A `(substring, color class)` token. -/
structure Token where
  text : List Char
  color : ColorClass
deriving DecidableEq, Repr

/-- The `KEYWORDS` set of the source, as lists of characters. -/
def kwList : List (List Char) :=
  (["auto", "break", "case", "char", "const", "continue", "default", "do", "double",
    "else", "enum", "extern", "float", "for", "goto", "if", "int", "long", "register",
    "return", "short", "signed", "sizeof", "static", "struct", "switch", "typedef",
    "union", "unsigned", "void", "volatile", "while", "bool", "catch", "class",
    "const_cast", "delete", "dynamic_cast", "explicit", "export", "false", "friend",
    "inline", "mutable", "namespace", "new", "operator", "private", "protected",
    "public", "reinterpret_cast", "static_cast", "template", "this", "throw", "true",
    "try", "typeid", "typename", "using", "virtual", "wchar_t", "nullptr",
    "#include", "#define", "#ifdef", "#endif", "#ifndef", "#pragma", "std", "vector",
    "string", "map", "list"].map String.data)

/-- The inner string-literal loop: `prev` is the character just before the
current one in the original line (`line[i - 2]` after the increment), `q` the
opening quote.  Consumes up to and including the first closing quote not
preceded by a backslash, or the whole remainder. -/
def scanString (q : Char) : Char → List Char → List Char × List Char
  | _, [] => ([], [])
  | prev, c :: cs =>
    if c = q ∧ prev ≠ '\\' then ([c], cs)
    else
      let p := scanString q c cs
      (c :: p.1, p.2)

/-- One iteration of the scanning loop of `renderCodeLine`: the tokens it
emits and the remainder of the line. -/
def tokenStep : List Char → List Token × List Char
  | [] => ([], [])
  | c :: cs =>
    -- 1. Comments: `//` or `/*` swallow the rest of the line.
    if c = '/' ∧ cs.head? = some '/' then ([⟨c :: cs, ColorClass.comment⟩], [])
    else if c = '/' ∧ cs.head? = some '*' then ([⟨c :: cs, ColorClass.comment⟩], [])
    -- 2. Strings.
    else if c = dq ∨ c = sq then
      ([⟨c :: (scanString c c cs).1, ColorClass.stringLit⟩], (scanString c c cs).2)
    -- 3. Preprocessor directives.  In the `#include <...>` path the source
    -- sets the keyword color, draws `#include`, and then draws the
    -- intervening whitespace with no color change in between, so that
    -- spacing token is drawn in the keyword color.
    else if c = '#' then
      if c :: cs.takeWhile isIdentChar = "#include".data then
        if ((cs.dropWhile isIdentChar).dropWhile isJsSpace).head? = some '<' then
          match ((cs.dropWhile isIdentChar).dropWhile isJsSpace).dropWhile
              (fun x => x ≠ '>') with
          | '>' :: r4 =>
            ([⟨c :: cs.takeWhile isIdentChar, ColorClass.keyword⟩,
              ⟨(cs.dropWhile isIdentChar).takeWhile isJsSpace, ColorClass.keyword⟩,
              ⟨((cs.dropWhile isIdentChar).dropWhile isJsSpace).takeWhile
                  (fun x => x ≠ '>') ++ [Char.ofNat 62], ColorClass.stringLit⟩], r4)
          | r3 =>
            ([⟨c :: cs.takeWhile isIdentChar, ColorClass.keyword⟩,
              ⟨(cs.dropWhile isIdentChar).takeWhile isJsSpace, ColorClass.keyword⟩,
              ⟨((cs.dropWhile isIdentChar).dropWhile isJsSpace).takeWhile
                  (fun x => x ≠ '>'), ColorClass.stringLit⟩], r3)
        else ([⟨c :: cs.takeWhile isIdentChar, ColorClass.keyword⟩], cs.dropWhile isIdentChar)
      else ([⟨c :: cs.takeWhile isIdentChar, ColorClass.keyword⟩], cs.dropWhile isIdentChar)
    -- 4. Numbers.
    else if isDigitC c then
      (([⟨(c :: cs).takeWhile isNumChar, ColorClass.numberLit⟩]),
        (c :: cs).dropWhile isNumChar)
    -- 5. Identifiers: keyword, function-call heuristic, or plain.
    else if isIdentStart c then
      if kwList.contains ((c :: cs).takeWhile isIdentChar) then
        ([⟨(c :: cs).takeWhile isIdentChar, ColorClass.keyword⟩],
          (c :: cs).dropWhile isIdentChar)
      else if (((c :: cs).dropWhile isIdentChar).dropWhile isJsSpace).head? = some '(' then
        ([⟨(c :: cs).takeWhile isIdentChar, ColorClass.functionName⟩],
          (c :: cs).dropWhile isIdentChar)
      else
        ([⟨(c :: cs).takeWhile isIdentChar, ColorClass.plain⟩],
          (c :: cs).dropWhile isIdentChar)
    -- 6. Any other single character.
    else ([⟨[c], ColorClass.plain⟩], cs)

/-- The string-literal scan only consumes characters. -/
theorem scanString_len (q : Char) : ∀ prev cs,
    ((scanString q prev cs).2).length ≤ cs.length := by
  intro prev cs
  induction cs generalizing prev with
  | nil => simp [scanString]
  | cons c cs ih =>
    rw [scanString]
    split
    · simp
    · simpa using Nat.le_succ_of_le (ih c)

/-- The string-literal scan splits its input exactly. -/
theorem scanString_spec (q : Char) : ∀ prev cs,
    (scanString q prev cs).1 ++ (scanString q prev cs).2 = cs := by
  intro prev cs
  induction cs generalizing prev with
  | nil => simp [scanString]
  | cons c cs ih =>
    rw [scanString]
    split
    · simp
    · simpa using ih c

/-- Each loop iteration makes strict progress. -/
theorem tokenStep_len : ∀ c cs, ((tokenStep (c :: cs)).2).length < (c :: cs).length := by
  intro c cs
  have hdw1 : ((cs.dropWhile isIdentChar).length) ≤ cs.length :=
    (List.dropWhile_sublist _).length_le
  have hdw2 : (((cs.dropWhile isIdentChar).dropWhile isJsSpace).length) ≤
      (cs.dropWhile isIdentChar).length := (List.dropWhile_sublist _).length_le
  have hdw3 : ((((cs.dropWhile isIdentChar).dropWhile isJsSpace).dropWhile
      (fun x => x ≠ '>')).length) ≤
      ((cs.dropWhile isIdentChar).dropWhile isJsSpace).length :=
    (List.dropWhile_sublist _).length_le
  rw [tokenStep]
  split
  · simp
  split
  · simp
  split
  · have := scanString_len c c cs
    simp only [List.length_cons]
    omega
  split
  · split
    · split
      · split
        · next heq =>
          have h3 := congrArg List.length heq
          simp only [List.length_cons] at h3 ⊢
          omega
        · simp only [List.length_cons]
          omega
      · simp only [List.length_cons]
        omega
    · simp only [List.length_cons]
      omega
  split
  · next hdig =>
    have hnc : isNumChar c = true := by
      unfold isDigitC at hdig
      unfold isNumChar
      simp [hdig]
    rw [List.dropWhile_cons, if_pos hnc]
    exact Nat.lt_succ_of_le (List.dropWhile_sublist _).length_le
  split
  · next hid =>
    have hc : isIdentChar c = true := by
      unfold isIdentStart at hid
      unfold isIdentChar
      rcases Bool.or_eq_true_iff.mp hid with h | h
      · rcases Bool.or_eq_true_iff.mp h with h' | h' <;> simp [h']
      · simp [h]
    have hlen : ((c :: cs).dropWhile isIdentChar).length < (c :: cs).length := by
      rw [List.dropWhile_cons, if_pos hc]
      exact Nat.lt_succ_of_le (List.dropWhile_sublist _).length_le
    split
    · exact hlen
    split
    · exact hlen
    · exact hlen
  · simp

/-- The scanning loop of `renderCodeLine`: all tokens of one line, in
emission order. -/
def tokenizeLine (cs : List Char) : List Token :=
  match cs with
  | [] => []
  | c :: rest => (tokenStep (c :: rest)).1 ++ tokenizeLine (tokenStep (c :: rest)).2
termination_by cs.length
decreasing_by exact tokenStep_len _ _

/-- The loop with explicit fuel: `tokenizeFuel n cs` runs at most `n`
iterations and returns the tokens accumulated so far. -/
def tokenizeFuel : Nat → List Char → List Token
  | 0, _ => []
  | _ + 1, [] => []
  | n + 1, c :: cs => (tokenStep (c :: cs)).1 ++ tokenizeFuel n (tokenStep (c :: cs)).2

/-! ### LayoutFitter (`PdfService.calculateLayout`)

All quantities are exact decimal fractions, modelled in `ℚ`:
`baseTextSize = 11`, `baseCodeSize = 9.5`, `baseLineHeight = 1.35`,
`baseSpacing = 14`, `minScale = 0.65`, `step = 0.05`.

The measurement oracle stands for `doc.splitTextToSize`: given whether the
current font is the code font, the current font size, the wrap width and a
text, it returns the wrapped lines.  (`MeasureFn` in the spec.) -/

/-- Measurement oracle: (isCode, fontSize, maxWidth, text) → wrapped lines. -/
def MeasureFn : Type := Bool → ℚ → ℚ → List Char → List (List Char)

/-- JS `String.prototype.split('\n')`. -/
def splitOnNl : List Char → List (List Char)
  | [] => [[]]
  | c :: cs =>
    if c = '\n' then [] :: splitOnNl cs
    else
      match splitOnNl cs with
      | [] => [[c]]
      | l :: ls => (c :: l) :: ls

/-- A measured block: the block plus its wrapped lines and height at one
specific scale (`ContentBlock` with `lines` and `height` filled in). -/
structure MeasuredBlock where
  type : BlockType
  content : List Char
  lines : List (List Char)
  height : ℚ
deriving DecidableEq, Repr

/-- The wrapped lines of one block at scale `s` (the body of the
`blocks.forEach` in `measureTotalHeight`): code blocks wrap each source line
independently, prose wraps the whole content. -/
def blockLines (measure : MeasureFn) (maxW : ℚ) (b : Block) (s : ℚ) : List (List Char) :=
  if b.type = BlockType.code then
    ((splitOnNl b.content).map (measure true ((19 : ℚ)/2 * s) maxW)).flatten
  else
    measure false (11 * s) maxW b.content

/-- One measured block at scale `s`: height = lineCount × lineHeight, with
`lineHeight = fontSize × 1.35` for the block's font. -/
def measureBlock (measure : MeasureFn) (maxW : ℚ) (s : ℚ) (b : Block) : MeasuredBlock :=
  { type := b.type
    content := b.content
    lines := blockLines measure maxW b s
    height := (blockLines measure maxW b s).length *
      ((if b.type = BlockType.code then (19 : ℚ)/2 * s else 11 * s) * (27/20)) }

/-- Model of `measureTotalHeight`: total height (block heights plus
`baseSpacing × scale` between consecutive blocks) and the measured blocks. -/
def measureTotalHeight (measure : MeasureFn) (maxW : ℚ) (blocks : List Block) (s : ℚ) :
    ℚ × List MeasuredBlock :=
  let ms := blocks.map (measureBlock measure maxW s)
  ((ms.map MeasuredBlock.height).sum + (14 * s) * ((blocks.length - 1 : ℕ) : ℚ), ms)

/-- Total height at scale `s`. -/
def totalHeightAt (measure : MeasureFn) (maxW : ℚ) (blocks : List Block) (s : ℚ) : ℚ :=
  (measureTotalHeight measure maxW blocks s).1

/-- The `while (measured.total > maxHeight && scale > minScale)` loop, with
fuel.  The loop decrements the scale by 0.05 from 1.0 and stops at 0.65, so
it runs at most 7 iterations; any fuel ≥ 8 is never exhausted. -/
def fitLoop (H : ℚ → ℚ) (maxH : ℚ) : Nat → ℚ → ℚ
  | 0, s => s
  | n + 1, s => if maxH < H s ∧ (13 : ℚ)/20 < s then fitLoop H maxH n (s - 1/20) else s

/-- The scale factor `calculateLayout` settles on. -/
def chosenScale (measure : MeasureFn) (blocks : List Block) (maxW maxH : ℚ) : ℚ :=
  fitLoop (totalHeightAt measure maxW blocks) maxH 8 1

/-- The `LayoutResult` record. -/
structure LayoutResult where
  blocks : List MeasuredBlock
  textFontSize : ℚ
  codeFontSize : ℚ
  lineHeightFactor : ℚ
  spacing : ℚ
deriving DecidableEq, Repr

/-- Model of `PdfService.calculateLayout`: run the fitting loop, return the measured
blocks at the final scale together with the scaled font sizes and spacing. -/
def calculateLayout (measure : MeasureFn) (blocks : List Block) (maxW maxH : ℚ) :
    LayoutResult :=
  { blocks := (measureTotalHeight measure maxW blocks
      (chosenScale measure blocks maxW maxH)).2
    textFontSize := 11 * chosenScale measure blocks maxW maxH
    codeFontSize := (19 : ℚ)/2 * chosenScale measure blocks maxW maxH
    lineHeightFactor := 27/20
    spacing := 14 * chosenScale measure blocks maxW maxH }

/-- The candidate scale after `k` decrements: `1 - 0.05 k`. -/
def scaleSeq (k : Nat) : ℚ := 1 - (k : ℚ)/20

/-- Reference search: from candidate index `j` with `n` candidates left
before the floor index `7`, the index of the first fitting scale (or the
floor index if none fits). -/
def firstFitAux (H : ℚ → ℚ) (maxH : ℚ) : Nat → Nat → Nat
  | 0, j => j
  | n + 1, j => if H (scaleSeq j) ≤ maxH then j else firstFitAux H maxH n (j + 1)

/-! ### PageCompositor (`PdfService.generatePdf`, per page)

`generatePdf` renders `layout.blocks` with a `forEach`, strictly in list
order.  The pure trace of one page is the measured block list itself. -/

/-- The per-page pipeline: segmentation of the cleaned text, then layout.
The compositor draws exactly these blocks, in this order. -/
def generatePage (measure : MeasureFn) (maxW maxH : ℚ) (cs : List Char) :
    List MeasuredBlock :=
  (calculateLayout measure (parseContent cs) maxW maxH).blocks

/-- Concatenation of the texts of a token list. -/
def tokenTexts (ts : List Token) : List Char := (ts.map Token.text).flatten

/-- A fixed one-line-per-text measurement oracle, for concrete checks. -/
def measOne : MeasureFn := fun _ _ _ t => [t]

/-- A one-block page, for concrete checks. -/
def blocksOne : List Block := [⟨BlockType.text, "hello".data⟩]

/-! ## Theorems -/

/-! ### Tokenizer: reconstruction, progress, `#include` handling -/

/-- One loop iteration accounts for exactly the consumed characters. -/
theorem tokenStep_concat : ∀ c cs,
    tokenTexts ((tokenStep (c :: cs)).1) ++ (tokenStep (c :: cs)).2 = c :: cs := by
  intro c cs
  have h62 : Char.ofNat 62 = '>' := by decide
  rw [tokenStep]
  split
  · simp [tokenTexts]
  split
  · simp [tokenTexts]
  split
  · have := scanString_spec c c cs
    simp only [tokenTexts, List.map_cons, List.map_nil, List.flatten_cons,
      List.flatten_nil, List.append_nil, List.cons_append, List.cons.injEq, true_and]
    rw [this]
  split
  · split
    · split
      · -- #include followed by < : split the match on the > scan
        split
        · next r4 heq =>
          simp only [tokenTexts, List.map_cons, List.map_nil, List.flatten_cons,
            List.flatten_nil, List.append_nil, List.nil_append, List.cons_append,
            List.append_assoc, List.cons.injEq, true_and, h62, List.singleton_append]
          rw [← heq, List.takeWhile_append_dropWhile, List.takeWhile_append_dropWhile,
            List.takeWhile_append_dropWhile]
        · simp only [tokenTexts, List.map_cons, List.map_nil, List.flatten_cons,
            List.flatten_nil, List.append_nil, List.cons_append, List.append_assoc,
            List.cons.injEq, true_and]
          rw [List.takeWhile_append_dropWhile, List.takeWhile_append_dropWhile,
            List.takeWhile_append_dropWhile]
      · simp only [tokenTexts, List.map_cons, List.map_nil, List.flatten_cons,
          List.flatten_nil, List.append_nil, List.cons_append, List.cons.injEq, true_and]
        exact List.takeWhile_append_dropWhile _ _
    · simp only [tokenTexts, List.map_cons, List.map_nil, List.flatten_cons,
        List.flatten_nil, List.append_nil, List.cons_append, List.cons.injEq, true_and]
      exact List.takeWhile_append_dropWhile _ _
  split
  · simp only [tokenTexts, List.map_cons, List.map_nil, List.flatten_cons,
      List.flatten_nil, List.append_nil]
    exact List.takeWhile_append_dropWhile _ _
  split
  · split
    · simp only [tokenTexts, List.map_cons, List.map_nil, List.flatten_cons,
        List.flatten_nil, List.append_nil]
      exact List.takeWhile_append_dropWhile _ _
    split
    · simp only [tokenTexts, List.map_cons, List.map_nil, List.flatten_cons,
        List.flatten_nil, List.append_nil]
      exact List.takeWhile_append_dropWhile _ _
    · simp only [tokenTexts, List.map_cons, List.map_nil, List.flatten_cons,
        List.flatten_nil, List.append_nil]
      exact List.takeWhile_append_dropWhile _ _
  · simp [tokenTexts]

/-- With enough fuel the bounded loop agrees with the unbounded one. -/
theorem tokenizeFuel_adequate : ∀ n cs, cs.length ≤ n →
    tokenizeFuel n cs = tokenizeLine cs := by
  intro n
  induction n with
  | zero =>
    intro cs h
    have : cs = [] := List.length_eq_zero.mp (Nat.le_zero.mp h)
    subst this
    simp [tokenizeFuel, tokenizeLine]
  | succ n ih =>
    intro cs h
    match cs with
    | [] => simp [tokenizeFuel, tokenizeLine]
    | c :: rest =>
      rw [tokenizeFuel, tokenizeLine]
      have hlt := tokenStep_len c rest
      have hle : ((tokenStep (c :: rest)).2).length ≤ n := by
        simp only [List.length_cons] at hlt h
        omega
      rw [ih _ hle]

/-- C2 (claim): for every input line the concatenation of the texts of all
emitted tokens, in emission order, is the original line: no characters are
gained, lost, or reordered, in any classification branch. -/
theorem claim2_tokenize_concat : ∀ cs, tokenTexts (tokenizeLine cs) = cs := by
  intro cs
  have main : ∀ n cs, cs.length ≤ n → tokenTexts (tokenizeLine cs) = cs := by
    intro n
    induction n with
    | zero =>
      intro cs h
      have : cs = [] := List.length_eq_zero.mp (Nat.le_zero.mp h)
      subst this
      simp [tokenizeLine, tokenTexts]
    | succ n ih =>
      intro cs h
      match cs with
      | [] => simp [tokenizeLine, tokenTexts]
      | c :: rest =>
        have hlt := tokenStep_len c rest
        have hle : ((tokenStep (c :: rest)).2).length ≤ n := by
          simp only [List.length_cons] at hlt h
          omega
        have ihr := ih _ hle
        rw [tokenizeLine]
        simp only [tokenTexts, List.map_append, List.flatten_append]
        simp only [tokenTexts] at ihr
        rw [ihr]
        simpa [tokenTexts] using tokenStep_concat c rest
  exact main cs.length cs le_rfl

/-- C8 (claim): the scan makes strict progress at every iteration (the
remainder shrinks by at least one character), so the loop terminates within
`length` iterations and — with exactly that much fuel — returns the same
accumulated tokens as the unbounded loop, for every input, with no error
(the model is total). -/
theorem claim8_tokenizer_progress :
    (∀ c cs, ((tokenStep (c :: cs)).2).length < (c :: cs).length) ∧
    (∀ cs, tokenizeFuel cs.length cs = tokenizeLine cs) := by
  refine ⟨tokenStep_len, fun cs => tokenizeFuel_adequate cs.length cs le_rfl⟩

/-- A `takeWhile` over an append stops exactly at the boundary when the left
part satisfies the predicate throughout and the right part starts failing it. -/
theorem takeWhile_append_all {α : Type} {p : α → Bool} : ∀ (xs ys : List α),
    (∀ c ∈ xs, p c = true) → (∀ c, ys.head? = some c → p c = false) →
    (xs ++ ys).takeWhile p = xs ∧ (xs ++ ys).dropWhile p = ys := by
  intro xs
  induction xs with
  | nil =>
    intro ys _ hy
    cases ys with
    | nil => simp
    | cons y ys' =>
      have := hy y (by simp)
      simp [List.takeWhile_cons, List.dropWhile_cons, this]
  | cons x xs ih =>
    intro ys hx hy
    have hpx : p x = true := hx x (by simp)
    have hrec := ih ys (fun c hc => hx c (by simp [hc])) hy
    simp [List.takeWhile_cons, List.dropWhile_cons, hpx, hrec.1, hrec.2]

/-- JS whitespace is never an identifier character. -/
theorem isJsSpace_not_ident : ∀ c, isJsSpace c = true → isIdentChar c = false := by
  intro c h
  have hd : c = ' ' ∨ c = '\t' ∨ c = '\n' ∨ c = '\x0d' ∨ c = Char.ofNat 11 ∨
      c = Char.ofNat 12 ∨ c = Char.ofNat 160 ∨ c = Char.ofNat 0xfeff := by
    simp only [isJsSpace, Bool.or_eq_true, decide_eq_true_eq] at h
    tauto
  rcases hd with h|h|h|h|h|h|h|h <;> subst h <;> decide

/-- C4 (claim, amended): when the directive is exactly `#include` and, past
the whitespace, the next character is `<`, the tokenizer emits `#include` as
a Keyword token, the whitespace verbatim as a token drawn with the Keyword
color still in effect (the source sets the keyword color before drawing
`#include` and does not reset it before drawing the spacing), and the span
from `<` through the closing `>` as one StringLiteral token; any directive
not followed by `<` is emitted whole as a single Keyword token. -/
theorem claim4_include_directive :
    (∀ sp hdr rest, (∀ c ∈ sp, isJsSpace c = true) → ('>' ∉ hdr) →
      tokenStep ('#' :: ("include".data ++ (sp ++ (('<' :: hdr) ++ ('>' :: rest))))) =
        ([⟨'#' :: "include".data, ColorClass.keyword⟩, ⟨sp, ColorClass.keyword⟩,
          ⟨('<' :: hdr) ++ ['>'], ColorClass.stringLit⟩], rest)) ∧
    (∀ ds rest, (∀ c ∈ ds, isIdentChar c = true) →
      (∀ c, rest.head? = some c → isIdentChar c = false) →
      ('#' :: ds = "#include".data →
        (rest.dropWhile isJsSpace).head? = some '<' → False) →
      tokenStep ('#' :: (ds ++ rest)) = ([⟨'#' :: ds, ColorClass.keyword⟩], rest)) := by
  constructor
  · intro sp hdr rest hsp hh
    have hbreak : ∀ c, (sp ++ (('<' :: hdr) ++ ('>' :: rest))).head? = some c →
        isIdentChar c = false := by
      intro c hc
      cases sp with
      | nil =>
        simp only [List.nil_append, List.cons_append, List.head?_cons,
          Option.some.injEq] at hc
        rcases hc with rfl
        decide
      | cons s sp' =>
        simp only [List.cons_append, List.head?_cons, Option.some.injEq] at hc
        rcases hc with rfl
        exact isJsSpace_not_ident _ (hsp _ (by simp))
    have hid := takeWhile_append_all ("include".data) (sp ++ (('<' :: hdr) ++ ('>' :: rest)))
      (by decide) hbreak
    have hsp2 := takeWhile_append_all sp (('<' :: hdr) ++ ('>' :: rest)) hsp (by
      intro c hc
      simp only [List.cons_append, List.head?_cons, Option.some.injEq] at hc
      rcases hc with rfl
      decide)
    have hgt : ∀ c ∈ '<' :: hdr, (fun x => decide (x ≠ '>')) c = true := by
      intro c hc
      rcases List.mem_cons.mp hc with h | h
      · subst h; decide
      · simp only [decide_eq_true_eq]
        intro hcontra
        exact hh (hcontra ▸ h)
    have hhd := takeWhile_append_all ('<' :: hdr) ('>' :: rest) hgt (by
      intro c hc
      simp only [List.head?_cons, Option.some.injEq] at hc
      rcases hc with rfl
      decide)
    have h62 : Char.ofNat 62 = '>' := by decide
    rw [tokenStep]
    rw [if_neg (fun hcon => absurd hcon.1 (by decide)),
      if_neg (fun hcon => absurd hcon.1 (by decide)),
      if_neg (fun hcon => by rcases hcon with h | h <;> exact absurd h (by decide)),
      if_pos rfl]
    rw [hid.1, hid.2, if_pos (by decide)]
    rw [hsp2.1, hsp2.2]
    rw [if_pos (by simp)]
    rw [hhd.1, hhd.2]
    simp [h62]
  · intro ds rest hds hrest hni
    have hid := takeWhile_append_all ds rest hds hrest
    rw [tokenStep]
    rw [if_neg (fun hcon => absurd hcon.1 (by decide)),
      if_neg (fun hcon => absurd hcon.1 (by decide)),
      if_neg (fun hcon => by rcases hcon with h | h <;> exact absurd h (by decide)),
      if_pos rfl]
    rw [hid.1, hid.2]
    by_cases hinc : '#' :: ds = "#include".data
    · rw [if_pos hinc]
      rw [if_neg (fun hlt => hni hinc hlt)]
    · rw [if_neg hinc]

/-- C4 witness: `#include <stdio.h>` and `#define X` at concrete inputs. -/
theorem claim4_witness :
    tokenStep ('#' :: ("include".data ++ ([' '] ++ (('<' :: "stdio.h".data) ++ ('>' :: []))))) =
      ([⟨'#' :: "include".data, ColorClass.keyword⟩, ⟨[' '], ColorClass.keyword⟩,
        ⟨('<' :: "stdio.h".data) ++ ['>'], ColorClass.stringLit⟩], []) ∧
    tokenStep ('#' :: ("define".data ++ (' ' :: "X".data))) =
      ([⟨'#' :: "define".data, ColorClass.keyword⟩], ' ' :: "X".data) :=
  ⟨claim4_include_directive.1 [' '] ("stdio.h".data) [] (by decide) (by decide),
   claim4_include_directive.2 ("define".data) (' ' :: "X".data) (by decide)
     (by
       intro c hc
       simp only [List.head?_cons, Option.some.injEq] at hc
       rcases hc with rfl
       decide)
     (by decide)⟩

/-- C4 counterexample: on `#include <stdio.h>` the claim's Default-colored
whitespace token never appears; the spacing token carries the Keyword color
(the source draws it with the keyword color still set), so the token lists
differ exactly in that token's color. -/
theorem claim4_counterexample :
    tokenStep ('#' :: ("include".data ++ ([' '] ++ (('<' :: "stdio.h".data) ++ ('>' :: []))))) ≠
      ([⟨'#' :: "include".data, ColorClass.keyword⟩, ⟨[' '], ColorClass.plain⟩,
        ⟨('<' :: "stdio.h".data) ++ ['>'], ColorClass.stringLit⟩], []) ∧
    ((tokenStep ('#' :: ("include".data ++
        ([' '] ++ (('<' :: "stdio.h".data) ++ ('>' :: [])))))).1).map Token.color =
      [ColorClass.keyword, ColorClass.keyword, ColorClass.stringLit] := by
  exact ⟨by decide, by decide⟩

/-! ### TextCleaner: entity decoding -/

/-- A replacement pass leaves a string without any occurrence of the pattern
untouched. -/
theorem replaceAll_noop {pat rep : List Char} : ∀ cs, containsPat pat cs = false →
    replaceAll pat rep cs = cs := by
  intro cs
  induction cs with
  | nil => intro _; rfl
  | cons c cs ih =>
    intro h
    simp only [containsPat, Bool.or_eq_false_iff] at h
    rw [replaceAll, skipThen, if_neg (fun hcon => by
      rw [hcon.1] at h
      exact absurd h.1 (by simp))]
    have := ih h.2
    rw [replaceAll] at this
    rw [this]

/-- The decimal-entity pass leaves a string with no decimal entity untouched. -/
theorem decEntities_noop : ∀ cs, hasDecEntity cs = false → decEntities 0 cs = cs := by
  intro cs
  induction cs with
  | nil => intro _; rfl
  | cons c cs ih =>
    intro h
    simp only [hasDecEntity, Bool.or_eq_false_iff, Bool.and_eq_false_iff] at h
    rw [decEntities, if_neg (fun hcon => by
      rcases h.1 with h' | h'
      · rw [hcon.1] at h'
        exact absurd h' (by simp)
      · rw [hcon.2] at h'
        exact absurd h' (by simp))]
    rw [ih h.2]

/-- The hex-entity pass leaves a string with no hex entity untouched. -/
theorem hexEntities_noop : ∀ cs, hasHexEntity cs = false → hexEntities 0 cs = cs := by
  intro cs
  induction cs with
  | nil => intro _; rfl
  | cons c cs ih =>
    intro h
    simp only [hasHexEntity, Bool.or_eq_false_iff, Bool.and_eq_false_iff] at h
    rw [hexEntities, if_neg (fun hcon => by
      rcases h.1 with h' | h'
      · rw [hcon.1] at h'
        exact absurd h' (by simp)
      · rw [hcon.2] at h'
        exact absurd h' (by simp))]
    rw [ih h.2]

/-- The scanners restart `k` characters further along: skipping is dropping. -/
theorem skipThen_drop (pat rep : List Char) : ∀ cs k,
    skipThen pat rep k cs = skipThen pat rep 0 (cs.drop k) := by
  intro cs
  induction cs with
  | nil => intro k; cases k <;> rfl
  | cons c cs ih =>
    intro k
    cases k with
    | zero => rfl
    | succ k => rw [skipThen, List.drop_succ_cons, ih k]

/-- Skipping is dropping, decimal pass. -/
theorem decEntities_skip : ∀ cs k, decEntities k cs = decEntities 0 (cs.drop k) := by
  intro cs
  induction cs with
  | nil => intro k; cases k <;> rfl
  | cons c cs ih =>
    intro k
    cases k with
    | zero => rfl
    | succ k => rw [decEntities, List.drop_succ_cons, ih k]

/-- Skipping is dropping, hex pass. -/
theorem hexEntities_skip : ∀ cs k, hexEntities k cs = hexEntities 0 (cs.drop k) := by
  intro cs
  induction cs with
  | nil => intro k; cases k <;> rfl
  | cons c cs ih =>
    intro k
    cases k with
    | zero => rfl
    | succ k => rw [hexEntities, List.drop_succ_cons, ih k]

/-- On any input containing the pattern, a literal replacement pass splits
the input at the leftmost occurrence, keeps the prefix before it verbatim,
replaces the occurrence, and continues scanning after it. -/
theorem replaceAll_match (pat rep : List Char) (hne : pat ≠ []) : ∀ cs,
    containsPat pat cs = true →
    ∃ a b, cs = a ++ (pat ++ b) ∧
      (∀ a1 a2, a = a1 ++ a2 → a2 ≠ [] → pat.isPrefixOf (a2 ++ (pat ++ b)) = false) ∧
      replaceAll pat rep cs = a ++ (rep ++ replaceAll pat rep b) := by
  intro cs
  induction cs with
  | nil =>
    intro h
    exfalso
    cases pat with
    | nil => exact hne rfl
    | cons p ps => simp [containsPat, List.isPrefixOf] at h
  | cons c cs ih =>
    intro h
    by_cases hp : pat.isPrefixOf (c :: cs) = true
    · obtain ⟨b, hb⟩ := List.isPrefixOf_iff_prefix.mp hp
      have hskip : skipThen pat rep (pat.length - 1) cs = replaceAll pat rep b := by
        cases pat with
        | nil => exact absurd rfl hne
        | cons p ps =>
          have hcs : ps ++ b = cs := by
            rw [List.cons_append] at hb
            injection hb with h1 h2
          rw [skipThen_drop]
          simp only [List.length_cons, Nat.add_sub_cancel]
          rw [← hcs, List.drop_left]
          rfl
      refine ⟨[], b, by rw [List.nil_append]; exact hb.symm, ?_, ?_⟩
      · intro a1 a2 h12 hne2
        exact absurd (List.append_eq_nil.mp h12.symm).2 hne2
      · calc replaceAll pat rep (c :: cs)
            = rep ++ skipThen pat rep (pat.length - 1) cs := by
              rw [replaceAll, skipThen, if_pos ⟨hp, hne⟩]
          _ = rep ++ replaceAll pat rep b := by rw [hskip]
          _ = [] ++ (rep ++ replaceAll pat rep b) := (List.nil_append _).symm
    · have hpf : pat.isPrefixOf (c :: cs) = false := by
        cases hx : pat.isPrefixOf (c :: cs)
        · rfl
        · exact absurd hx hp
      have h' : containsPat pat cs = true := by
        rw [containsPat, Bool.or_eq_true] at h
        rcases h with hx | hx
        · exact absurd hx hp
        · exact hx
      obtain ⟨a, b, hab, hmin, hrw⟩ := ih h'
      refine ⟨c :: a, b, by rw [List.cons_append, ← hab], ?_, ?_⟩
      · intro a1 a2 h12 hne2
        cases a1 with
        | nil =>
          rw [List.nil_append] at h12
          rw [← h12, List.cons_append, ← hab]
          exact hpf
        | cons d a1' =>
          rw [List.cons_append] at h12
          injection h12 with h1 h2
          exact hmin a1' a2 h2 hne2
      · calc replaceAll pat rep (c :: cs) = c :: skipThen pat rep 0 cs := by
              rw [replaceAll, skipThen, if_neg (fun hcon => hp hcon.1)]
          _ = c :: replaceAll pat rep cs := rfl
          _ = c :: (a ++ (rep ++ replaceAll pat rep b)) := by rw [hrw]
          _ = (c :: a) ++ (rep ++ replaceAll pat rep b) := by rw [List.cons_append]

/-- On any input containing a decimal entity, the decimal pass splits the
input at the leftmost entity, keeps the prefix verbatim, decodes the entity,
and continues scanning after it. -/
theorem decEntities_match : ∀ cs, hasDecEntity cs = true →
    ∃ a b, cs = a ++ ('&' :: b) ∧ decEntHead b = true ∧
      (∀ a1 a2, a = a1 ++ a2 → a2 ≠ [] → decEntStart (a2 ++ ('&' :: b)) = false) ∧
      decEntities 0 cs = a ++ (decEntChar b :: decEntities 0 (b.drop (decEntSkip b))) := by
  intro cs
  induction cs with
  | nil => intro h; simp [hasDecEntity] at h
  | cons c cs ih =>
    intro h
    by_cases hm : c = '&' ∧ decEntHead cs = true
    · refine ⟨[], cs, by rw [List.nil_append, hm.1], hm.2, ?_, ?_⟩
      · intro a1 a2 h12 hne2
        exact absurd (List.append_eq_nil.mp h12.symm).2 hne2
      · calc decEntities 0 (c :: cs)
            = decEntChar cs :: decEntities (decEntSkip cs) cs := by
              rw [decEntities, if_pos hm]
          _ = decEntChar cs :: decEntities 0 (cs.drop (decEntSkip cs)) := by
              rw [decEntities_skip]
          _ = [] ++ (decEntChar cs :: decEntities 0 (cs.drop (decEntSkip cs))) :=
              (List.nil_append _).symm
    · have h' : hasDecEntity cs = true := by
        rw [hasDecEntity, Bool.or_eq_true] at h
        simp only [Bool.and_eq_true, decide_eq_true_eq] at h
        rcases h with hx | hx
        · exact absurd hx hm
        · exact hx
      obtain ⟨a, b, hab, hhd, hmin, hrw⟩ := ih h'
      refine ⟨c :: a, b, by rw [List.cons_append, ← hab], hhd, ?_, ?_⟩
      · intro a1 a2 h12 hne2
        cases a1 with
        | nil =>
          rw [List.nil_append] at h12
          rw [← h12, List.cons_append, ← hab]
          by_cases hc : c = '&'
          · have hd : decEntHead cs = false := by
              cases hdec : decEntHead cs
              · rfl
              · exact absurd ⟨hc, hdec⟩ hm
            rw [decEntStart]
            simp [hc, hd]
          · rw [decEntStart]
            simp [hc]
        | cons d a1' =>
          rw [List.cons_append] at h12
          injection h12 with h1 h2
          exact hmin a1' a2 h2 hne2
      · calc decEntities 0 (c :: cs) = c :: decEntities 0 cs := by
              rw [decEntities, if_neg hm]
          _ = c :: (a ++ (decEntChar b :: decEntities 0 (b.drop (decEntSkip b)))) := by
              rw [hrw]
          _ = (c :: a) ++ (decEntChar b :: decEntities 0 (b.drop (decEntSkip b))) := by
              rw [List.cons_append]

/-- On any input containing a hex entity, the hex pass splits the input at
the leftmost entity, keeps the prefix verbatim, decodes the entity, and
continues scanning after it. -/
theorem hexEntities_match : ∀ cs, hasHexEntity cs = true →
    ∃ a b, cs = a ++ ('&' :: b) ∧ hexEntHead b = true ∧
      (∀ a1 a2, a = a1 ++ a2 → a2 ≠ [] → hexEntStart (a2 ++ ('&' :: b)) = false) ∧
      hexEntities 0 cs = a ++ (hexEntChar b :: hexEntities 0 (b.drop (hexEntSkip b))) := by
  intro cs
  induction cs with
  | nil => intro h; simp [hasHexEntity] at h
  | cons c cs ih =>
    intro h
    by_cases hm : c = '&' ∧ hexEntHead cs = true
    · refine ⟨[], cs, by rw [List.nil_append, hm.1], hm.2, ?_, ?_⟩
      · intro a1 a2 h12 hne2
        exact absurd (List.append_eq_nil.mp h12.symm).2 hne2
      · calc hexEntities 0 (c :: cs)
            = hexEntChar cs :: hexEntities (hexEntSkip cs) cs := by
              rw [hexEntities, if_pos hm]
          _ = hexEntChar cs :: hexEntities 0 (cs.drop (hexEntSkip cs)) := by
              rw [hexEntities_skip]
          _ = [] ++ (hexEntChar cs :: hexEntities 0 (cs.drop (hexEntSkip cs))) :=
              (List.nil_append _).symm
    · have h' : hasHexEntity cs = true := by
        rw [hasHexEntity, Bool.or_eq_true] at h
        simp only [Bool.and_eq_true, decide_eq_true_eq] at h
        rcases h with hx | hx
        · exact absurd hx hm
        · exact hx
      obtain ⟨a, b, hab, hhd, hmin, hrw⟩ := ih h'
      refine ⟨c :: a, b, by rw [List.cons_append, ← hab], hhd, ?_, ?_⟩
      · intro a1 a2 h12 hne2
        cases a1 with
        | nil =>
          rw [List.nil_append] at h12
          rw [← h12, List.cons_append, ← hab]
          by_cases hc : c = '&'
          · have hd : hexEntHead cs = false := by
              cases hdec : hexEntHead cs
              · rfl
              · exact absurd ⟨hc, hdec⟩ hm
            rw [hexEntStart]
            simp [hc, hd]
          · rw [hexEntStart]
            simp [hc]
        | cons d a1' =>
          rw [List.cons_append] at h12
          injection h12 with h1 h2
          exact hmin a1' a2 h2 hne2
      · calc hexEntities 0 (c :: cs) = c :: hexEntities 0 cs := by
              rw [hexEntities, if_neg hm]
          _ = c :: (a ++ (hexEntChar b :: hexEntities 0 (b.drop (hexEntSkip b)))) := by
              rw [hrw]
          _ = (c :: a) ++ (hexEntChar b :: hexEntities 0 (b.drop (hexEntSkip b))) := by
              rw [List.cons_append]

/-- C7 (claim, amended): the cleaner is the fixed sequence of eight global
replacement passes, in source order; within each pass, on every input, every
leftmost non-overlapping occurrence of that pass's pattern is replaced by
its literal character while all other characters of that pass's input are
kept verbatim (leftmost-split decomposition), and inputs containing none of
a pass's patterns are left untouched by it — in particular an input with no
pattern at all, such as an unknown `&...;` sequence, passes through the
whole cleaner unchanged, and the cleaner is total (never throws).  Because
the passes run in sequence, a later pass may consume output of an earlier
one, so decoding is per pass, not one left-to-right decode of the original
string (see the C7 counterexample and C10). -/
theorem claim7_clean_entities :
    (∀ cs, cleanText cs =
      hexEntities 0 (decEntities 0 (
        replaceAll ("&#39;".data) [sq] (
        replaceAll ("&quot;".data) [dq] (
        replaceAll ("&gt;".data) (">".data) (
        replaceAll ("&lt;".data) ("<".data) (
        replaceAll ("&amp;".data) ("&".data) (
        replaceAll ("&nbsp;".data) (" ".data) cs)))))))) ∧
    (∀ pat rep cs, containsPat pat cs = false → replaceAll pat rep cs = cs) ∧
    (∀ pat rep cs, pat ≠ [] → containsPat pat cs = true →
      ∃ a b, cs = a ++ (pat ++ b) ∧
        (∀ a1 a2, a = a1 ++ a2 → a2 ≠ [] →
          pat.isPrefixOf (a2 ++ (pat ++ b)) = false) ∧
        replaceAll pat rep cs = a ++ (rep ++ replaceAll pat rep b)) ∧
    (∀ cs, hasDecEntity cs = false → decEntities 0 cs = cs) ∧
    (∀ cs, hasDecEntity cs = true →
      ∃ a b, cs = a ++ ('&' :: b) ∧ decEntHead b = true ∧
        (∀ a1 a2, a = a1 ++ a2 → a2 ≠ [] → decEntStart (a2 ++ ('&' :: b)) = false) ∧
        decEntities 0 cs =
          a ++ (decEntChar b :: decEntities 0 (b.drop (decEntSkip b)))) ∧
    (∀ cs, hasHexEntity cs = false → hexEntities 0 cs = cs) ∧
    (∀ cs, hasHexEntity cs = true →
      ∃ a b, cs = a ++ ('&' :: b) ∧ hexEntHead b = true ∧
        (∀ a1 a2, a = a1 ++ a2 → a2 ≠ [] → hexEntStart (a2 ++ ('&' :: b)) = false) ∧
        hexEntities 0 cs =
          a ++ (hexEntChar b :: hexEntities 0 (b.drop (hexEntSkip b)))) ∧
    (∀ cs, containsPat ("&nbsp;".data) cs = false → containsPat ("&amp;".data) cs = false →
      containsPat ("&lt;".data) cs = false → containsPat ("&gt;".data) cs = false →
      containsPat ("&quot;".data) cs = false → containsPat ("&#39;".data) cs = false →
      hasDecEntity cs = false → hasHexEntity cs = false → cleanText cs = cs) ∧
    cleanText ("&nbsp;".data) = " ".data ∧
    cleanText ("&amp;".data) = "&".data ∧
    cleanText ("&lt;".data) = "<".data ∧
    cleanText ("&gt;".data) = ">".data ∧
    cleanText ("&quot;".data) = [dq] ∧
    cleanText ("&#39;".data) = [sq] ∧
    cleanText ("&#65;".data) = "A".data ∧
    cleanText ("&#x41;".data) = "A".data ∧
    cleanText ("x&lt;y".data) = "x<y".data := by
  refine ⟨fun cs => rfl,
    fun pat rep cs h => replaceAll_noop cs h,
    fun pat rep cs hne h => replaceAll_match pat rep hne cs h,
    decEntities_noop,
    decEntities_match,
    hexEntities_noop,
    hexEntities_match,
    ?_, by decide, by decide, by decide, by decide, by decide, by decide,
    by decide, by decide, by decide⟩
  intro cs h1 h2 h3 h4 h5 h6 h7 h8
  unfold cleanText
  rw [replaceAll_noop cs h1, replaceAll_noop cs h2, replaceAll_noop cs h3,
    replaceAll_noop cs h4, replaceAll_noop cs h5, replaceAll_noop cs h6,
    decEntities_noop cs h7, hexEntities_noop cs h8]

/-- C7 witness: the leftmost-split decomposition applied to a literal, a
decimal and a hex entity in context, plus an unknown entity passing through
the whole cleaner unchanged. -/
theorem claim7_witness :
    ("&lt;".data ≠ ([] : List Char) ∧ containsPat ("&lt;".data) ("x&lt;y".data) = true ∧
      ∃ a b, "x&lt;y".data = a ++ ("&lt;".data ++ b) ∧
        (∀ a1 a2, a = a1 ++ a2 → a2 ≠ [] →
          ("&lt;".data).isPrefixOf (a2 ++ ("&lt;".data ++ b)) = false) ∧
        replaceAll ("&lt;".data) ("<".data) ("x&lt;y".data) =
          a ++ ("<".data ++ replaceAll ("&lt;".data) ("<".data) b)) ∧
    (hasDecEntity ("a&#65;b".data) = true ∧
      ∃ a b, "a&#65;b".data = a ++ ('&' :: b) ∧ decEntHead b = true ∧
        (∀ a1 a2, a = a1 ++ a2 → a2 ≠ [] → decEntStart (a2 ++ ('&' :: b)) = false) ∧
        decEntities 0 ("a&#65;b".data) =
          a ++ (decEntChar b :: decEntities 0 (b.drop (decEntSkip b)))) ∧
    (hasHexEntity ("c&#x41;d".data) = true ∧
      ∃ a b, "c&#x41;d".data = a ++ ('&' :: b) ∧ hexEntHead b = true ∧
        (∀ a1 a2, a = a1 ++ a2 → a2 ≠ [] → hexEntStart (a2 ++ ('&' :: b)) = false) ∧
        hexEntities 0 ("c&#x41;d".data) =
          a ++ (hexEntChar b :: hexEntities 0 (b.drop (hexEntSkip b)))) ∧
    cleanText ("a &unknown; b".data) = "a &unknown; b".data :=
  ⟨⟨by decide, by decide,
    claim7_clean_entities.2.2.1 ("&lt;".data) ("<".data) ("x&lt;y".data)
      (by decide) (by decide)⟩,
   ⟨by decide, claim7_clean_entities.2.2.2.2.1 ("a&#65;b".data) (by decide)⟩,
   ⟨by decide, claim7_clean_entities.2.2.2.2.2.2.1 ("c&#x41;d".data) (by decide)⟩,
   claim7_clean_entities.2.2.2.2.2.2.2.1 _ (by decide) (by decide) (by decide)
     (by decide) (by decide) (by decide) (by decide) (by decide)⟩

/-- C7 counterexample: the original claim reads the cleaner as one decode of
the original string — each occurrence of the entity set replaced, all
surrounding content untouched.  On `"&amp;lt;" = "&amp;" ++ "lt;"` that
reading predicts `"&" ++ "lt;"`, since `&amp;` alone decodes to `&`; the
cleaner instead lets the later `&lt;` pass consume the surrounding `lt;`
together with the freshly decoded `&`, so the outputs differ. -/
theorem claim7_counterexample :
    "&amp;lt;".data = "&amp;".data ++ "lt;".data ∧
    cleanText ("&amp;".data) = "&".data ∧
    cleanText ("&amp;lt;".data) ≠ "&".data ++ "lt;".data :=
  ⟨by decide, by decide, by decide⟩

/-- C10 (claim): the replacement passes are applied in sequence over the
whole string, so the output of the `&amp;` pass is consumed by the later
`&lt;` pass: `"&amp;lt;"` decodes to `"<"`, not to the literal `"&lt;"` a
single-pass decoder would produce. -/
theorem claim10_double_decode :
    cleanText ("&amp;lt;".data) = "<".data ∧
    cleanText ("&amp;lt;".data) ≠ "&lt;".data := by
  constructor
  · decide
  · decide

/-! ### ContentSegmenter: unterminated fences, block transform, order -/

/-- Unfolding `segmentBlocks` when no fence matches. -/
theorem segmentBlocks_eq_none {cs : List Char} (h : findFence cs = none) :
    segmentBlocks cs = proseOf cs := by
  rw [segmentBlocks]
  split
  · rfl
  · next pre ct rest h' => rw [h'] at h; exact absurd h (by simp)

/-- Unfolding `segmentBlocks` at a fence match. -/
theorem segmentBlocks_eq_some {cs pre ct rest : List Char}
    (h : findFence cs = some (pre, ct, rest)) :
    segmentBlocks cs = proseOf pre ++ codeOf ct ++ segmentBlocks rest := by
  rw [segmentBlocks]
  split
  · next h' => rw [h'] at h; exact absurd h (by simp)
  · next pre' ct' rest' h' =>
    rw [h'] at h
    simp only [Option.some.injEq, Prod.mk.injEq] at h
    obtain ⟨h1, h2, h3⟩ := h
    rw [h1, h2, h3]

/-- Members failing the predicate survive `dropWhile`. -/
theorem mem_dropWhile_of_false {α : Type} {p : α → Bool} : ∀ (l : List α) (a : α),
    a ∈ l → p a = false → a ∈ l.dropWhile p := by
  intro l
  induction l with
  | nil => intro a ha _; exact absurd ha (by simp)
  | cons x xs ih =>
    intro a ha hp
    rw [List.dropWhile_cons]
    split
    · next hx =>
      rcases List.mem_cons.mp ha with rfl | hmem
      · rw [hp] at hx; exact absurd hx (by simp)
      · exact ih a hmem hp
    · exact ha

/-- Non-whitespace characters survive the JS trim. -/
theorem mem_jsTrim {cs : List Char} {c : Char} (hc : c ∈ cs)
    (hw : isJsSpace c = false) : c ∈ jsTrim cs := by
  unfold jsTrim
  rw [List.mem_reverse]
  refine mem_dropWhile_of_false _ _ ?_ hw
  rw [List.mem_reverse]
  exact mem_dropWhile_of_false _ _ hc hw

/-- C3 (claim): when no fence pattern matches anywhere (in particular when
an opening fence is never closed), segmentation emits the whole text,
trimmed, as a single Prose block — the unterminated region is not consumed
as code and no non-whitespace character of the input is lost. -/
theorem claim3_unterminated_fence_prose : ∀ cs, findFence cs = none →
    (segmentBlocks cs =
      if jsTrim cs = [] then [] else [⟨BlockType.text, jsTrim cs⟩]) ∧
    (∀ c ∈ cs, isJsSpace c = false → ∃ b ∈ segmentBlocks cs, c ∈ b.content) := by
  intro cs h
  have hseg : segmentBlocks cs = proseOf cs := segmentBlocks_eq_none h
  refine ⟨by rw [hseg]; rfl, ?_⟩
  intro c hc hw
  have hmem : c ∈ jsTrim cs := mem_jsTrim hc hw
  have hne : jsTrim cs ≠ [] := by
    intro hnil
    rw [hnil] at hmem
    exact absurd hmem (by simp)
  refine ⟨⟨BlockType.text, jsTrim cs⟩, ?_, hmem⟩
  rw [hseg]
  unfold proseOf
  rw [if_neg hne]
  simp

/-- C3 witness: a prose prefix followed by an opening fence that is never
closed. -/
theorem claim3_witness :
    findFence ("a ```c\nint x;".data) = none ∧
    ((segmentBlocks ("a ```c\nint x;".data) =
        if jsTrim ("a ```c\nint x;".data) = [] then []
        else [⟨BlockType.text, jsTrim ("a ```c\nint x;".data)⟩]) ∧
      (∀ c ∈ ("a ```c\nint x;".data), isJsSpace c = false →
        ∃ b ∈ segmentBlocks ("a ```c\nint x;".data), c ∈ b.content)) :=
  ⟨by decide, claim3_unterminated_fence_prose _ (by decide)⟩

/-- A `takeWhile` over a list whose head fails the predicate is empty. -/
theorem takeWhile_eq_nil_of_head {α : Type} {p : α → Bool} : ∀ {l : List α},
    (∀ c, l.head? = some c → p c = false) → l.takeWhile p = [] := by
  intro l h
  cases l with
  | nil => rfl
  | cons x xs =>
    rw [List.takeWhile_cons, if_neg]
    simp [h x rfl]

/-- The lazy close scan finds the boundary when the content has no backtick. -/
theorem findClose_boundary {code post : List Char} (h : btk ∉ code) :
    findClose (code ++ (btk :: btk :: btk :: post)) = some (code, post) := by
  induction code with
  | nil =>
    rw [List.nil_append, findClose, if_pos ⟨rfl, by simp, by simp⟩]
    rfl
  | cons c code ih =>
    have hc : c ≠ btk := fun hcc => h (hcc ▸ List.mem_cons_self c code)
    rw [List.cons_append, findClose, if_neg (fun hcon => hc hcon.1),
      ih (fun hm => h (List.mem_cons_of_mem _ hm))]
    rfl

/-- Pattern `\s*\n` right after the fence line: with the content not starting in
whitespace, the match consumes exactly the newline. -/
theorem matchWsNl_newline {X : List Char} (h : X.takeWhile isJsSpace = []) :
    matchWsNl ('\n' :: X) = some X := by
  have hdrop : X.dropWhile isJsSpace = X := by
    conv_rhs => rw [← List.takeWhile_append_dropWhile isJsSpace X, h]
    rfl
  have htake : List.takeWhile isJsSpace ('\n' :: X) = ['\n'] := by
    rw [List.takeWhile_cons, if_pos (by decide), h]
  have hdropc : List.dropWhile isJsSpace ('\n' :: X) = X := by
    rw [List.dropWhile_cons, if_pos (by decide), hdrop]
  unfold matchWsNl
  rw [htake, hdropc]
  simp

/-- The whole fence pattern matches at the boundary decomposition. -/
theorem matchFenceHere_boundary {code post : List Char} (hcode : btk ∉ code)
    (hhd : ∀ c, code.head? = some c → isJsSpace c = false) :
    matchFenceHere
        (btk :: btk :: btk :: '\n' :: (code ++ (btk :: btk :: btk :: post))) =
      some (code, post) := by
  have hX : ∀ c, (code ++ (btk :: btk :: btk :: post)).head? = some c →
      isJsSpace c = false := by
    intro c hc
    cases code with
    | nil =>
      simp only [List.nil_append, List.head?_cons, Option.some.injEq] at hc
      rcases hc with rfl
      decide
    | cons x xs =>
      simp only [List.cons_append, List.head?_cons, Option.some.injEq] at hc
      exact hhd c (by simp [← hc])
  rw [matchFenceHere, if_pos ⟨rfl, rfl, rfl⟩]
  rw [List.dropWhile_cons, if_neg (by decide)]
  rw [matchWsNl_newline (takeWhile_eq_nil_of_head hX)]
  exact findClose_boundary hcode

/-- A fence match cannot start on a non-backtick character. -/
theorem matchFenceHere_none_of_head {c : Char} (h : c ≠ btk) :
    ∀ xs, matchFenceHere (c :: xs) = none := by
  intro xs
  match xs with
  | [] => rfl
  | [x] => rfl
  | x :: y :: zs => rw [matchFenceHere, if_neg (fun hcon => h hcon.1)]

/-- The `exec` search finds exactly the boundary fence when the prose prefix
and the fenced content contain no backtick. -/
theorem findFence_boundary {pre code post : List Char} (hpre : btk ∉ pre)
    (hcode : btk ∉ code) (hhd : ∀ c, code.head? = some c → isJsSpace c = false) :
    findFence (pre ++ (btk :: btk :: btk :: '\n' :: (code ++ (btk :: btk :: btk :: post)))) =
      some (pre, code, post) := by
  induction pre with
  | nil =>
    rw [List.nil_append, findFence, matchFenceHere_boundary hcode hhd]
  | cons p pre' ih =>
    have hp : p ≠ btk := fun hpp => hpre (hpp ▸ List.mem_cons_self p pre')
    rw [List.cons_append, findFence, matchFenceHere_none_of_head hp,
      ih (fun hm => hpre (List.mem_cons_of_mem _ hm))]
    rfl

/-- C6 (claim): a balanced fenced region becomes a Code block whose content
is the fenced content with each tab replaced by four spaces and the leading
and trailing newline runs stripped (inner blank lines kept); if nothing
remains, no Code block is emitted for that fence. -/
theorem claim6_code_block_transform (pre code post : List Char)
    (hpre : btk ∉ pre) (hcode : btk ∉ code)
    (hhd : ∀ c, code.head? = some c → isJsSpace c = false) :
    segmentBlocks (pre ++ (btk :: btk :: btk :: '\n' :: (code ++ (btk :: btk :: btk :: post)))) =
      proseOf pre ++
        (if stripNl (tabTo4 code) = [] then []
          else [⟨BlockType.code, stripNl (tabTo4 code)⟩]) ++
        segmentBlocks post := by
  rw [segmentBlocks_eq_some (findFence_boundary hpre hcode hhd)]
  rfl

/-- C6 witness: a concrete fence with a tab and trailing blank line. -/
theorem claim6_witness :
    segmentBlocks ("before ".data ++
        (btk :: btk :: btk :: '\n' :: ("int x;\n\tok\n\n".data ++
          (btk :: btk :: btk :: "\nafter".data)))) =
      proseOf ("before ".data) ++
        (if stripNl (tabTo4 ("int x;\n\tok\n\n".data)) = [] then []
          else [⟨BlockType.code, stripNl (tabTo4 ("int x;\n\tok\n\n".data))⟩]) ++
        segmentBlocks ("\nafter".data) :=
  claim6_code_block_transform _ _ _ (by decide) (by decide)
    (by
      intro c hc
      simp only [List.head?_cons, Option.some.injEq] at hc
      rcases hc with rfl
      decide)

/-- C9 (claim): blocks are emitted in source order by segmentation (prose
before each fence, then the fence's code block, then the blocks of the
remainder), and layout fitting and page composition keep that list order,
type by type and content by content — no reordering or merging. -/
theorem claim9_block_order :
    (∀ cs pre ct rest, findFence cs = some (pre, ct, rest) →
      segmentBlocks cs = proseOf pre ++ codeOf ct ++ segmentBlocks rest) ∧
    (∀ (measure : MeasureFn) (blocks : List Block) (maxW maxH : ℚ),
      ((calculateLayout measure blocks maxW maxH).blocks).map
          (fun m => (m.type, m.content)) =
        blocks.map (fun b => (b.type, b.content))) ∧
    (∀ (measure : MeasureFn) (maxW maxH : ℚ) (cs : List Char),
      (generatePage measure maxW maxH cs).map (fun m => (m.type, m.content)) =
        (segmentBlocks (cleanText cs)).map (fun b => (b.type, b.content))) := by
  refine ⟨fun cs pre ct rest h => segmentBlocks_eq_some h, ?_, ?_⟩
  · intro measure blocks maxW maxH
    simp only [calculateLayout, measureTotalHeight, List.map_map]
    rfl
  · intro measure maxW maxH cs
    simp only [generatePage, parseContent, calculateLayout, measureTotalHeight,
      List.map_map]
    rfl

/-- C9 witness: the segmentation equation at a concrete input. -/
theorem claim9_witness :
    findFence ("x\n```\ny\n```z".data) =
      some ("x\n".data, "y\n".data, "z".data) ∧
    segmentBlocks ("x\n```\ny\n```z".data) =
      proseOf ("x\n".data) ++ codeOf ("y\n".data) ++ segmentBlocks ("z".data) :=
  ⟨by decide, claim9_block_order.1 _ _ _ _ (by decide)⟩

/-! ### LayoutFitter: first-fit search and monotonicity -/

theorem scaleSeq_floor : ∀ k, k ≤ 7 → (13 : ℚ)/20 ≤ scaleSeq k := by
  intro k hk
  unfold scaleSeq
  have hc : (k : ℚ) ≤ 7 := by exact_mod_cast hk
  linarith

theorem scaleSeq_anti : ∀ {j k : Nat}, j ≤ k → scaleSeq k ≤ scaleSeq j := by
  intro j k h
  unfold scaleSeq
  have hc : (j : ℚ) ≤ (k : ℚ) := by exact_mod_cast h
  linarith

theorem scaleSeq_gt_floor : ∀ {j : Nat}, j < 7 → (13 : ℚ)/20 < scaleSeq j := by
  intro j h
  unfold scaleSeq
  have hc : (j : ℚ) ≤ 6 := by exact_mod_cast Nat.lt_succ_iff.mp h
  linarith

theorem scaleSeq_seven : scaleSeq 7 = 13/20 := by
  unfold scaleSeq
  norm_num

theorem scaleSeq_succ : ∀ j : Nat, scaleSeq j - 1/20 = scaleSeq (j + 1) := by
  intro j
  unfold scaleSeq
  push_cast
  ring

/-- The `while` loop realises the first-fit search over the scale
candidates `scaleSeq j`, stopping at index 7 (the 0.65 floor). -/
theorem fitLoop_eq_firstFit (H : ℚ → ℚ) (maxH : ℚ) : ∀ n j, n + j = 7 →
    fitLoop H maxH (n + 1) (scaleSeq j) = scaleSeq (firstFitAux H maxH n j) := by
  intro n
  induction n with
  | zero =>
    intro j hj
    have hj7 : j = 7 := by omega
    subst hj7
    rw [fitLoop,
      if_neg (fun hcon => absurd hcon.2 (by rw [scaleSeq_seven]; exact lt_irrefl _))]
    rfl
  | succ n ih =>
    intro j hj
    rw [fitLoop, firstFitAux]
    by_cases hfit : H (scaleSeq j) ≤ maxH
    · rw [if_neg (fun hcon => absurd hfit (not_le.mpr hcon.1)), if_pos hfit]
    · rw [if_pos ⟨not_le.mp hfit, scaleSeq_gt_floor (by omega)⟩, if_neg hfit,
        scaleSeq_succ, ih (j + 1) (by omega)]

/-- The chosen scale in terms of the first-fit index. -/
theorem chosenScale_eq (measure : MeasureFn) (blocks : List Block) (maxW maxH : ℚ) :
    chosenScale measure blocks maxW maxH =
      scaleSeq (firstFitAux (totalHeightAt measure maxW blocks) maxH 7 0) := by
  have h0 : scaleSeq 0 = 1 := by unfold scaleSeq; norm_num
  unfold chosenScale
  rw [← h0]
  exact fitLoop_eq_firstFit _ _ 7 0 (by norm_num)

theorem firstFitAux_ge (H : ℚ → ℚ) (maxH : ℚ) : ∀ n j, j ≤ firstFitAux H maxH n j := by
  intro n
  induction n with
  | zero => intro j; exact le_rfl
  | succ n ih =>
    intro j
    rw [firstFitAux]
    split
    · exact le_rfl
    · exact le_trans (Nat.le_succ j) (ih (j + 1))

theorem firstFitAux_le (H : ℚ → ℚ) (maxH : ℚ) : ∀ n j, firstFitAux H maxH n j ≤ n + j := by
  intro n
  induction n with
  | zero => intro j; simp [firstFitAux]
  | succ n ih =>
    intro j
    rw [firstFitAux]
    split
    · omega
    · have := ih (j + 1)
      omega

theorem firstFitAux_min (H : ℚ → ℚ) (maxH : ℚ) : ∀ n j i, j ≤ i →
    i < firstFitAux H maxH n j → maxH < H (scaleSeq i) := by
  intro n
  induction n with
  | zero =>
    intro j i hji hlt
    rw [firstFitAux] at hlt
    omega
  | succ n ih =>
    intro j i hji hlt
    rw [firstFitAux] at hlt
    split at hlt
    · omega
    · next hfit =>
      rcases Nat.eq_or_lt_of_le hji with rfl | hlt2
      · exact not_le.mp hfit
      · exact ih (j + 1) i hlt2 hlt

theorem firstFitAux_fits_or_end (H : ℚ → ℚ) (maxH : ℚ) : ∀ n j,
    H (scaleSeq (firstFitAux H maxH n j)) ≤ maxH ∨ firstFitAux H maxH n j = n + j := by
  intro n
  induction n with
  | zero => intro j; right; simp [firstFitAux]
  | succ n ih =>
    intro j
    rw [firstFitAux]
    split
    · next hfit => exact Or.inl hfit
    · rcases ih (j + 1) with hfit | hend
      · exact Or.inl hfit
      · right
        omega

theorem firstFitAux_anti (H : ℚ → ℚ) {maxH maxH' : ℚ} (hm : maxH ≤ maxH') :
    ∀ n j, firstFitAux H maxH' n j ≤ firstFitAux H maxH n j := by
  intro n
  induction n with
  | zero => intro j; exact le_rfl
  | succ n ih =>
    intro j
    by_cases hfit : H (scaleSeq j) ≤ maxH
    · have hfit' : H (scaleSeq j) ≤ maxH' := le_trans hfit hm
      rw [firstFitAux, if_pos hfit', firstFitAux, if_pos hfit]
    · rw [firstFitAux, firstFitAux, if_neg hfit]
      by_cases hfit' : H (scaleSeq j) ≤ maxH'
      · rw [if_pos hfit']
        exact le_trans (Nat.le_succ j) (firstFitAux_ge H maxH n (j + 1))
      · rw [if_neg hfit']
        exact ih (j + 1)

/-- C1 (claim): the total height at scale `s` is the sum over blocks of
lineCount × (base size × s) × 1.35 plus spacing × (blockCount − 1), and the
fitter returns the first scale of the sequence 1, 0.95, 0.9, … whose total
height fits `maxHeight` — the floor 0.65 if none of the eight candidates
fits — never below the floor and never skipping a fitting larger scale. -/
theorem claim1_layout_first_fit (measure : MeasureFn) (blocks : List Block)
    (maxW maxH : ℚ) :
    (∀ s : ℚ, totalHeightAt measure maxW blocks s =
      (blocks.map (fun b => ((blockLines measure maxW b s).length : ℚ) *
        ((if b.type = BlockType.code then (19 : ℚ)/2 else 11) * s) * (27/20))).sum +
      (14 * s) * ((blocks.length - 1 : ℕ) : ℚ)) ∧
    ∃ K : ℕ, K ≤ 7 ∧
      chosenScale measure blocks maxW maxH = scaleSeq K ∧
      (∀ j, j < K → maxH < totalHeightAt measure maxW blocks (scaleSeq j)) ∧
      (totalHeightAt measure maxW blocks (scaleSeq K) ≤ maxH ∨ K = 7) ∧
      (13 : ℚ)/20 ≤ chosenScale measure blocks maxW maxH ∧
      (calculateLayout measure blocks maxW maxH).textFontSize =
        11 * chosenScale measure blocks maxW maxH ∧
      (calculateLayout measure blocks maxW maxH).codeFontSize =
        (19 : ℚ)/2 * chosenScale measure blocks maxW maxH := by
  constructor
  · intro s
    unfold totalHeightAt measureTotalHeight
    simp only [List.map_map]
    congr 1
    apply congrArg List.sum
    apply List.map_congr_left
    intro b _
    simp only [Function.comp, measureBlock]
    split <;> ring
  · refine ⟨firstFitAux (totalHeightAt measure maxW blocks) maxH 7 0,
      by simpa using firstFitAux_le (totalHeightAt measure maxW blocks) maxH 7 0,
      chosenScale_eq measure blocks maxW maxH,
      fun j hj => firstFitAux_min _ _ 7 0 j (Nat.zero_le j) hj,
      by simpa using firstFitAux_fits_or_end (totalHeightAt measure maxW blocks) maxH 7 0,
      ?_, rfl, rfl⟩
    rw [chosenScale_eq]
    exact scaleSeq_floor _
      (by simpa using firstFitAux_le (totalHeightAt measure maxW blocks) maxH 7 0)

/-- C1 witness: the first-fit characterisation at a concrete oracle,
block list and bounds. -/
theorem claim1_witness :
    (∀ s : ℚ, totalHeightAt measOne 100 blocksOne s =
      (blocksOne.map (fun b => ((blockLines measOne 100 b s).length : ℚ) *
        ((if b.type = BlockType.code then (19 : ℚ)/2 else 11) * s) * (27/20))).sum +
      (14 * s) * ((blocksOne.length - 1 : ℕ) : ℚ)) ∧
    ∃ K : ℕ, K ≤ 7 ∧
      chosenScale measOne blocksOne 100 10 = scaleSeq K ∧
      (∀ j, j < K → 10 < totalHeightAt measOne 100 blocksOne (scaleSeq j)) ∧
      (totalHeightAt measOne 100 blocksOne (scaleSeq K) ≤ 10 ∨ K = 7) ∧
      (13 : ℚ)/20 ≤ chosenScale measOne blocksOne 100 10 ∧
      (calculateLayout measOne blocksOne 100 10).textFontSize =
        11 * chosenScale measOne blocksOne 100 10 ∧
      (calculateLayout measOne blocksOne 100 10).codeFontSize =
        (19 : ℚ)/2 * chosenScale measOne blocksOne 100 10 :=
  claim1_layout_first_fit measOne blocksOne 100 10

/-- C5 (claim): for a fixed oracle, block list and width, the returned
scale factor is monotone non-decreasing in `maxHeight`. -/
theorem claim5_fit_monotone (measure : MeasureFn) (blocks : List Block) (maxW : ℚ)
    {maxH1 maxH2 : ℚ} (h : maxH1 ≤ maxH2) :
    chosenScale measure blocks maxW maxH1 ≤ chosenScale measure blocks maxW maxH2 := by
  rw [chosenScale_eq, chosenScale_eq]
  exact scaleSeq_anti (firstFitAux_anti _ h 7 0)

/-- C5 witness: monotonicity at concrete heights. -/
theorem claim5_witness :
    (5 : ℚ) ≤ 20 ∧
    chosenScale measOne blocksOne 100 5 ≤ chosenScale measOne blocksOne 100 20 :=
  ⟨by norm_num, claim5_fit_monotone measOne blocksOne 100 (by norm_num)⟩

end Propison
